import Mathlib

/-!
Verification of the ant25 flood-fill engine.

This file gives a shallow embedding of the Rust library in src/lib/lib.rs
(and its use from src/main.rs) and proves properties of the embedded
definitions.

Modelling choices, stated once:

* The Rust usize type (64-bit platform) is modelled by Nat together with the
  constant USIZE_MAX = 2 ^ 64 - 1.  Where the source can overflow, the model
  wraps explicitly modulo USIZE_MAX + 1, which is the release-mode semantics
  of unsigned overflow in Rust.
* FieldSparseMatrix = HashMap<usize, HashMap<usize, FieldCellState>> is
  modelled by nested association lists with unique keys (AList); the outer
  key is y, the inner key is x, exactly as in the source.
* The while loop in get_digits_sum is modelled with a structural counter
  that starts at the loop argument itself; each iteration divides the
  remainder by ten, so the counter never runs out (proved below).
* try_into().unwrap() in get_digits_sum, which panics when the accumulator
  does not fit in u16, is modelled by an Option result: none is the panic.
* The unbounded recursion of mark_cells_avail_for_ant is modelled with an
  explicit recursion budget (fuel); a none result means the recursion nested
  deeper than the given budget, mirroring the finite call stack of the
  process.
* write_ppm is modelled as the list of bytes written to the file, in order.
-/

/-- Maximum value of the 64-bit usize type. -/
def USIZE_MAX : Nat := 2 ^ 64 - 1

/-- Body of the while loop of get_digits_sum: while n_rem > 0, add
n_rem % 10 to the accumulator and divide n_rem by 10.  The first argument is
a structural recursion budget; the loop runs at most as many iterations as
the starting value of n_rem, so a budget equal to that value is enough. -/
def get_digits_sum_loop : Nat → Nat → Nat → Nat
  | 0, _, acc => acc
  | budget + 1, n_rem, acc =>
    if n_rem = 0 then acc else get_digits_sum_loop budget (n_rem / 10) (acc + n_rem % 10)

/-- Embedding of get_digits_sum: run the digit loop, then convert the usize
accumulator to u16; the conversion panics (modelled by none) exactly when the
accumulated sum does not fit in 16 bits. -/
def get_digits_sum (n : Nat) : Option Nat :=
  if get_digits_sum_loop n n 0 < 2 ^ 16 then some (get_digits_sum_loop n n 0) else none

/-- Embedding of the FieldCellState enum. -/
inductive FieldCellState where
  | Clear
  | Obstacle
  | Avail
deriving DecidableEq

/-- Inner map of the sparse matrix: x coordinate to cell state. -/
abbrev FieldRow := AList (fun _ : Nat => FieldCellState)

/-- Embedding of FieldSparseMatrix = HashMap<usize, HashMap<usize,
FieldCellState>>: the outer key is y, the inner key is x. -/
abbrev FieldSparseMatrix := AList (fun _ : Nat => FieldRow)

/-- Embedding of calc_field_cell_state: Obstacle when the digit sums of the
two coordinates add up to more than 25, Clear otherwise.  The source calls
get_digits_sum and unwraps; the unwrap is proved unreachable for platform
coordinates below (theorem digit_sum_overflow_guard), so the loop value is
used directly here. -/
def calc_field_cell_state (x y : Nat) : FieldCellState :=
  if get_digits_sum_loop x x 0 + get_digits_sum_loop y y 0 > 25 then
    FieldCellState.Obstacle
  else
    FieldCellState.Clear

/-- Embedding of set_cell_state: when a row for y exists, insert x into it;
otherwise create a fresh row, then insert x into that row. -/
def set_cell_state (field : FieldSparseMatrix) (x y : Nat) (v : FieldCellState) :
    FieldSparseMatrix :=
  match AList.lookup y field with
  | some row => AList.insert y (AList.insert x v row) field
  | none => AList.insert y (AList.insert x v (∅ : FieldRow)) field

/-- Embedding of get_cell_state: return the stored entry when present,
otherwise fall back to calc_field_cell_state without touching the store. -/
def get_cell_state (field : FieldSparseMatrix) (x y : Nat) : FieldCellState :=
  match AList.lookup y field with
  | some row =>
    match AList.lookup x row with
    | some cell_state => cell_state
    | none => calc_field_cell_state x y
  | none => calc_field_cell_state x y

/-- The stored entry at (x, y), if any; absence is distinct from Clear. -/
def stored_cell_state (field : FieldSparseMatrix) (x y : Nat) : Option FieldCellState :=
  (AList.lookup y field).bind fun row => AList.lookup x row

/-- The recursion targets of one call of mark_cells_avail_for_ant, with their
guards, in source order: (x, y+1) under y <= usize::MAX, (x, y-1) under
y > usize::MIN, (x-1, y) under x > usize::MIN, (x+1, y) under
x <= usize::MAX.  The increments wrap modulo USIZE_MAX + 1, the release-mode
behaviour of usize addition. -/
def nbrs (x y : Nat) : List (Nat × Nat) :=
  (if y ≤ USIZE_MAX then [(x, (y + 1) % (USIZE_MAX + 1))] else []) ++
  (if y > 0 then [(x, y - 1)] else []) ++
  (if x > 0 then [(x - 1, y)] else []) ++
  (if x ≤ USIZE_MAX then [((x + 1) % (USIZE_MAX + 1), y)] else [])

/-- Sequential execution of a marker on a list of targets, threading the
store; this is the straight-line sequence of the four guarded recursive
calls in the source. -/
def runMarks (m : FieldSparseMatrix → Nat → Nat → Option FieldSparseMatrix)
    (field : FieldSparseMatrix) (ps : List (Nat × Nat)) : Option FieldSparseMatrix :=
  ps.foldl (fun acc p => acc.bind fun g => m g p.1 p.2) (some field)

/-- Embedding of mark_cells_avail_for_ant: return unless the cell is Clear,
otherwise mark it Avail and recurse into the guarded neighbours in source
order.  The extra Nat argument is the recursion budget standing for the call
stack; none means the recursion nested beyond the budget. -/
def mark_cells_avail_for_ant :
    Nat → FieldSparseMatrix → Nat → Nat → Option FieldSparseMatrix
  | 0, _, _, _ => none
  | fuel + 1, field, x, y =>
    if get_cell_state field x y ≠ FieldCellState.Clear then some field
    else
      runMarks (mark_cells_avail_for_ant fuel)
        (set_cell_state field x y FieldCellState.Avail) (nbrs x y)

/-- Embedding of count_cells_avail_for_ant: sum, over every stored row, the
number of stored entries whose state is Avail. -/
def count_cells_avail_for_ant (field : FieldSparseMatrix) : Nat :=
  (field.entries.map fun r =>
    (r.2.entries.map fun c => if c.2 = FieldCellState.Avail then 1 else 0).sum).sum

/-- Embedding of map_state_to_color: Clear is yellow, Obstacle is blue,
Avail is green, each a three-byte RGB triple. -/
def map_state_to_color : FieldCellState → List Nat
  | FieldCellState.Clear => [0xFF, 0xFF, 0x00]
  | FieldCellState.Obstacle => [0x00, 0x00, 0xFF]
  | FieldCellState.Avail => [0x00, 0xFF, 0x00]

/-- Bytes of an ASCII string, as written by write to the output file. -/
def strBytes (s : String) : List Nat := s.toList.map Char.toNat

/-- Embedding of write_ppm as the byte stream written to the file: the magic
token line, the width and height line, the 255 line, then one colour triple
per cell, rows y_start..y_end outer, columns x_start..x_end inner. -/
def write_ppm (field : FieldSparseMatrix) (x_start y_start x_end y_end : Nat) :
    List Nat :=
  strBytes "P6\n" ++
  strBytes (toString (x_end - x_start + 1) ++ " " ++ toString (y_end - y_start + 1) ++ "\n") ++
  strBytes "255\n" ++
  (List.range (y_end + 1 - y_start)).flatMap fun i =>
    (List.range (x_end + 1 - x_start)).flatMap fun j =>
      map_state_to_color (get_cell_state field (x_start + j) (y_start + i))

/-- Header of the PPM stream for a given width and height. -/
def ppm_header (w h : Nat) : List Nat :=
  strBytes "P6\n" ++ strBytes (toString w ++ " " ++ toString h ++ "\n") ++ strBytes "255\n"

/-- Reachability along the guarded neighbour steps of the traversal, through
cells whose state in the given store is Clear.  This is the specification
side of the flood fill: the seed itself must be Clear, and each step moves
to a guarded neighbour that is Clear in the store. -/
inductive Reach (field : FieldSparseMatrix) (sx sy : Nat) : Nat → Nat → Prop where
  | seed : get_cell_state field sx sy = FieldCellState.Clear → Reach field sx sy sx sy
  | step {x y x2 y2 : Nat} :
      Reach field sx sy x y →
      (x2, y2) ∈ nbrs x y →
      get_cell_state field x2 y2 = FieldCellState.Clear →
      Reach field sx sy x2 y2

/-- The list of coordinates (x, y) stored as Avail, read off the entries of
the store. -/
def availList (field : FieldSparseMatrix) : List (Nat × Nat) :=
  field.entries.flatMap fun r =>
    (r.2.entries.filter fun c => c.2 = FieldCellState.Avail).map fun c => (c.1, r.1)

/-- A store is released-from-Avail when no coordinate reads back as Avail;
since the classification rule never produces Avail, this says no Avail entry
is stored. -/
def noAvailStore (field : FieldSparseMatrix) : Prop :=
  ∀ a b : Nat, get_cell_state field a b ≠ FieldCellState.Avail

/-- Upgrade relation between stores: the second store agrees with the first
everywhere, except that some cells that were Clear may have become Avail.
Every step of the traversal produces an upgrade. -/
def Upgrades (f f2 : FieldSparseMatrix) : Prop :=
  ∀ a b : Nat,
    get_cell_state f2 a b = get_cell_state f a b ∨
    (get_cell_state f a b = FieldCellState.Clear ∧
      get_cell_state f2 a b = FieldCellState.Avail)

/-! Concrete stores used to instantiate the theorems below. -/

/-- The hand-drawn 10 by 5 test grid from the test suite of the repository:
X is an obstacle, a star is expected reachable, a space is expected to stay
clear.  There are 24 star cells. -/
def cageRows : List (List Char) :=
  ["XXXX**XXXX", "X********X", "X**X**X**X", "****X****X", "XXXXXXXXX "].map String.toList

/-- The test grid loaded into a store exactly as the repository test does:
every one of the 50 cells is set explicitly, X as Obstacle and everything
else as Clear. -/
def cage : FieldSparseMatrix :=
  (List.range 5).foldl
    (fun f y =>
      (List.range 10).foldl
        (fun f x =>
          set_cell_state f x y
            (if (cageRows.getD y []).getD x 'X' = 'X' then FieldCellState.Obstacle
             else FieldCellState.Clear))
        f)
    ∅

/-- Result of the traversal of the test grid seeded at (4, 2). -/
def cageMarked : FieldSparseMatrix :=
  (mark_cells_avail_for_ant 100 cage 4 2).getD ∅

/-- A store holding one stray Avail entry at (5, 5) and nothing else. -/
def strayAvailStore : FieldSparseMatrix :=
  set_cell_state ∅ 5 5 FieldCellState.Avail

/-- A store holding one Avail entry at (5, 5) and one Obstacle entry at
(6, 5). -/
def tinyStore : FieldSparseMatrix :=
  set_cell_state (set_cell_state ∅ 5 5 FieldCellState.Avail) 6 5 FieldCellState.Obstacle

/-- Result of the traversal of tinyStore seeded at (9970, 0), an isolated
Clear cell all of whose live neighbours are obstacles. -/
def tinyMarked : FieldSparseMatrix :=
  (mark_cells_avail_for_ant 2 tinyStore 9970 0).getD ∅

/-! ## Digit sum lemmas -/

/-- With enough budget, the digit loop computes the accumulator plus the sum
of the base-10 digits of the remainder. -/
theorem get_digits_sum_loop_eq :
    ∀ budget n acc, n ≤ budget →
      get_digits_sum_loop budget n acc = acc + (Nat.digits 10 n).sum := by
  intro budget
  induction budget with
  | zero =>
    intro n acc hn
    have h0 : n = 0 := Nat.le_zero.mp hn
    subst h0
    simp [get_digits_sum_loop]
  | succ budget ih =>
    intro n acc hn
    rw [get_digits_sum_loop]
    by_cases h : n = 0
    · simp [h]
    · have hdiv : n / 10 ≤ budget :=
        Nat.le_of_lt_succ (Nat.lt_of_lt_of_le (Nat.div_lt_self (Nat.pos_of_ne_zero h) (by norm_num)) hn)
      rw [if_neg h, ih (n / 10) (acc + n % 10) hdiv,
        Nat.digits_def' (by norm_num : (1 : Nat) < 10) (Nat.pos_of_ne_zero h)]
      simp [List.sum_cons]
      omega

/-- The base-10 digit sum of any value of the platform width is below 181,
hence far below the 16-bit bound. -/
theorem digit_sum_le_of_le_usize {n : Nat} (hn : n ≤ USIZE_MAX) :
    (Nat.digits 10 n).sum ≤ 180 := by
  have hlen : (Nat.digits 10 n).length ≤ 20 := by
    rcases Nat.eq_zero_or_pos n with h0 | hpos
    · simp [h0]
    · rw [Nat.digits_len 10 n (by norm_num) (Nat.pos_iff_ne_zero.mp hpos)]
      have hlog : Nat.log 10 n < 20 := by
        apply Nat.log_lt_of_lt_pow (Nat.pos_iff_ne_zero.mp hpos)
        calc n ≤ USIZE_MAX := hn
          _ < 10 ^ 20 := by norm_num [USIZE_MAX]
      omega
  have hdig : ∀ d ∈ Nat.digits 10 n, d ≤ 9 := by
    intro d hd
    exact Nat.lt_succ_iff.mp (Nat.digits_lt_base (by norm_num) hd)
  calc (Nat.digits 10 n).sum ≤ (Nat.digits 10 n).length • 9 :=
        List.sum_le_card_nsmul _ 9 hdig
    _ = (Nat.digits 10 n).length * 9 := smul_eq_mul _
    _ ≤ 20 * 9 := by exact Nat.mul_le_mul_right 9 hlen
    _ = 180 := by norm_num

/-! ## Store lemmas -/

/-- Looking up the key of a singleton association list of cell states. -/
theorem lookup_singleton_self (x : Nat) (v : FieldCellState) :
    AList.lookup x (AList.singleton (β := fun _ : Nat => FieldCellState) x v) = some v := by
  simp [AList.singleton, AList.lookup, List.dlookup_cons_eq]

/-- Looking up any other key of a singleton association list of cell
states. -/
theorem lookup_singleton_ne (x x2 : Nat) (v : FieldCellState) (h : x2 ≠ x) :
    AList.lookup x2 (AList.singleton (β := fun _ : Nat => FieldCellState) x v) = none := by
  simp only [AList.singleton, AList.lookup, List.dlookup]
  rw [dif_neg (fun hh => h hh.symm)]

/-- The classification rule never produces Avail. -/
theorem calc_ne_avail (x y : Nat) : calc_field_cell_state x y ≠ FieldCellState.Avail := by
  unfold calc_field_cell_state
  split <;> simp

/-- Reading back the coordinate just written returns exactly the written
state. -/
theorem get_set_self (f : FieldSparseMatrix) (x y : Nat) (v : FieldCellState) :
    get_cell_state (set_cell_state f x y v) x y = v := by
  unfold set_cell_state get_cell_state
  cases h : AList.lookup y f <;>
    simp [AList.lookup_insert, AList.insert_empty, lookup_singleton_self]

/-- Writing one coordinate leaves every other coordinate unchanged. -/
theorem get_set_ne (f : FieldSparseMatrix) (x y x2 y2 : Nat) (v : FieldCellState)
    (h : (x, y) ≠ (x2, y2)) :
    get_cell_state (set_cell_state f x y v) x2 y2 = get_cell_state f x2 y2 := by
  by_cases hy : y = y2
  · subst hy
    have hx : x ≠ x2 := by
      intro hx
      exact h (by rw [hx])
    unfold set_cell_state get_cell_state
    cases hrow : AList.lookup y f <;>
      simp [AList.lookup_insert, AList.lookup_insert_ne (Ne.symm hx), AList.insert_empty,
        lookup_singleton_ne x x2 v (Ne.symm hx), hrow]
  · unfold set_cell_state get_cell_state
    cases hrow : AList.lookup y f <;>
      simp [AList.lookup_insert_ne (Ne.symm hy)]

/-- A stored entry is returned verbatim. -/
theorem get_of_stored (f : FieldSparseMatrix) (x y : Nat) (s : FieldCellState)
    (h : stored_cell_state f x y = some s) : get_cell_state f x y = s := by
  unfold stored_cell_state at h
  cases hrow : AList.lookup y f with
  | none => rw [hrow] at h; simp at h
  | some row =>
    rw [hrow] at h
    simp at h
    simp [get_cell_state, hrow, h]

/-- Without a stored entry, the classification rule decides, and nothing is
inserted: get_cell_state is a pure function of the store. -/
theorem get_of_unstored (f : FieldSparseMatrix) (x y : Nat)
    (h : stored_cell_state f x y = none) :
    get_cell_state f x y = calc_field_cell_state x y := by
  unfold stored_cell_state at h
  cases hrow : AList.lookup y f with
  | none => simp [get_cell_state, hrow]
  | some row =>
    rw [hrow] at h
    simp at h
    simp [get_cell_state, hrow, h]

/-- A coordinate reads back Avail exactly when an Avail entry is stored
there. -/
theorem get_avail_iff_stored (f : FieldSparseMatrix) (x y : Nat) :
    get_cell_state f x y = FieldCellState.Avail ↔
      stored_cell_state f x y = some FieldCellState.Avail := by
  cases hrow : AList.lookup y f with
  | none => simp [get_cell_state, stored_cell_state, hrow, calc_ne_avail x y]
  | some row =>
    cases hc : AList.lookup x row with
    | none => simp [get_cell_state, stored_cell_state, hrow, hc, calc_ne_avail x y]
    | some s => simp [get_cell_state, stored_cell_state, hrow, hc]

/-! ## Upgrade relation -/

theorem upgrades_refl (f : FieldSparseMatrix) : Upgrades f f := by
  intro a b
  exact Or.inl rfl

theorem upgrades_trans {f1 f2 f3 : FieldSparseMatrix}
    (h12 : Upgrades f1 f2) (h23 : Upgrades f2 f3) : Upgrades f1 f3 := by
  intro a b
  rcases h23 a b with h3 | ⟨h2c, h3a⟩
  · rcases h12 a b with h2 | ⟨h1c, h2a⟩
    · exact Or.inl (h3.trans h2)
    · exact Or.inr ⟨h1c, h3.trans h2a⟩
  · rcases h12 a b with h2 | ⟨h1c, h2a⟩
    · exact Or.inr ⟨h2.symm.trans h2c, h3a⟩
    · rw [h2a] at h2c
      cases h2c

/-- An upgrade never erases an Avail cell. -/
theorem upgrades_avail {f f2 : FieldSparseMatrix} (h : Upgrades f f2) {a b : Nat}
    (ha : get_cell_state f a b = FieldCellState.Avail) :
    get_cell_state f2 a b = FieldCellState.Avail := by
  rcases h a b with heq | ⟨hc, _⟩
  · rw [heq, ha]
  · rw [ha] at hc
    cases hc

/-- An upgrade leaves every cell that is not Clear untouched. -/
theorem upgrades_nonclear {f f2 : FieldSparseMatrix} (h : Upgrades f f2) {a b : Nat}
    (ha : get_cell_state f a b ≠ FieldCellState.Clear) :
    get_cell_state f2 a b = get_cell_state f a b := by
  rcases h a b with heq | ⟨hc, _⟩
  · exact heq
  · exact absurd hc ha

/-- Marking one Clear cell Avail is an upgrade. -/
theorem upgrades_set {f : FieldSparseMatrix} {x y : Nat}
    (hc : get_cell_state f x y = FieldCellState.Clear) :
    Upgrades f (set_cell_state f x y FieldCellState.Avail) := by
  intro a b
  by_cases hab : (x, y) = (a, b)
  · injection hab with h1 h2
    subst h1
    subst h2
    exact Or.inr ⟨hc, get_set_self f x y FieldCellState.Avail⟩
  · exact Or.inl (get_set_ne f x y a b FieldCellState.Avail hab)

/-! ## Sequencing lemmas for the guarded recursive calls -/

theorem runMarks_nil (m : FieldSparseMatrix → Nat → Nat → Option FieldSparseMatrix)
    (f : FieldSparseMatrix) : runMarks m f [] = some f := rfl

theorem foldl_bind_none (m : FieldSparseMatrix → Nat → Nat → Option FieldSparseMatrix)
    (ps : List (Nat × Nat)) :
    ps.foldl (fun acc p => acc.bind fun g => m g p.1 p.2) none = none := by
  induction ps with
  | nil => rfl
  | cons p ps ih => simpa using ih

theorem runMarks_cons (m : FieldSparseMatrix → Nat → Nat → Option FieldSparseMatrix)
    (f : FieldSparseMatrix) (p : Nat × Nat) (ps : List (Nat × Nat)) :
    runMarks m f (p :: ps) = (m f p.1 p.2).bind fun g => runMarks m g ps := by
  unfold runMarks
  rw [List.foldl_cons]
  simp only [Option.some_bind]
  cases hm : m f p.1 p.2 with
  | none => simpa using foldl_bind_none m ps
  | some g => simp

/-- Threading a transitive store relation through a sequence of calls. -/
theorem runMarks_chain {m : FieldSparseMatrix → Nat → Nat → Option FieldSparseMatrix}
    {P : FieldSparseMatrix → FieldSparseMatrix → Prop}
    (href : ∀ g, P g g)
    (htr : ∀ {g1 g2 g3}, P g1 g2 → P g2 g3 → P g1 g3)
    (hstep : ∀ g a b g2, m g a b = some g2 → P g g2) :
    ∀ ps f f2, runMarks m f ps = some f2 → P f f2 := by
  intro ps
  induction ps with
  | nil =>
    intro f f2 h
    rw [runMarks_nil] at h
    cases h
    exact href f
  | cons p ps ih =>
    intro f f2 h
    rw [runMarks_cons] at h
    rcases Option.bind_eq_some.mp h with ⟨g, hg, hrest⟩
    exact htr (hstep f p.1 p.2 g hg) (ih g f2 hrest)

/-- Threading a store invariant through a sequence of calls, where each
target preserves the invariant. -/
theorem runMarks_inv {m : FieldSparseMatrix → Nat → Nat → Option FieldSparseMatrix}
    {Q : FieldSparseMatrix → Prop} :
    ∀ ps f f2, runMarks m f ps = some f2 → Q f →
      (∀ p ∈ ps, ∀ g g2, Q g → m g p.1 p.2 = some g2 → Q g2) → Q f2 := by
  intro ps
  induction ps with
  | nil =>
    intro f f2 h hq _
    rw [runMarks_nil] at h
    cases h
    exact hq
  | cons p ps ih =>
    intro f f2 h hq hstep
    rw [runMarks_cons] at h
    rcases Option.bind_eq_some.mp h with ⟨g, hg, hrest⟩
    exact ih g f2 hrest (hstep p (List.mem_cons_self p ps) f g hq hg)
      fun q hq2 => hstep q (List.mem_cons_of_mem p hq2)

/-! ## Basic facts about the traversal -/

theorem mark_zero (f : FieldSparseMatrix) (x y : Nat) :
    mark_cells_avail_for_ant 0 f x y = none := rfl

theorem mark_succ (fuel : Nat) (f : FieldSparseMatrix) (x y : Nat) :
    mark_cells_avail_for_ant (fuel + 1) f x y =
      if get_cell_state f x y ≠ FieldCellState.Clear then some f
      else
        runMarks (mark_cells_avail_for_ant fuel)
          (set_cell_state f x y FieldCellState.Avail) (nbrs x y) := rfl

/-- The traversal only upgrades the store: cells that were Clear may become
Avail and nothing else changes. -/
theorem mark_upgrades :
    ∀ fuel f x y f2, mark_cells_avail_for_ant fuel f x y = some f2 → Upgrades f f2 := by
  intro fuel
  induction fuel with
  | zero =>
    intro f x y f2 h
    rw [mark_zero] at h
    cases h
  | succ fuel ih =>
    intro f x y f2 h
    rw [mark_succ] at h
    split at h
    · cases h
      exact upgrades_refl f
    · next hguard =>
      have hclear : get_cell_state f x y = FieldCellState.Clear := not_ne_iff.mp hguard
      exact upgrades_trans (upgrades_set hclear)
        (runMarks_chain upgrades_refl upgrades_trans
          (fun g a b g2 hg => ih g a b g2 hg) (nbrs x y) _ f2 h)

/-- A call on a cell that is not Clear returns the store unchanged. -/
theorem mark_skip {fuel : Nat} {f : FieldSparseMatrix} {x y : Nat} {f2 : FieldSparseMatrix}
    (h : mark_cells_avail_for_ant fuel f x y = some f2)
    (hnc : get_cell_state f x y ≠ FieldCellState.Clear) : f2 = f := by
  cases fuel with
  | zero => rw [mark_zero] at h; cases h
  | succ fuel =>
    rw [mark_succ, if_pos hnc] at h
    cases h
    rfl

/-- A completed call on a Clear cell leaves that cell Avail. -/
theorem mark_marks_seed {fuel : Nat} {f : FieldSparseMatrix} {x y : Nat}
    {f2 : FieldSparseMatrix}
    (h : mark_cells_avail_for_ant fuel f x y = some f2)
    (hc : get_cell_state f x y = FieldCellState.Clear) :
    get_cell_state f2 x y = FieldCellState.Avail := by
  cases fuel with
  | zero => rw [mark_zero] at h; cases h
  | succ fuel =>
    rw [mark_succ, if_neg (not_ne_iff.mpr hc)] at h
    have hup : Upgrades (set_cell_state f x y FieldCellState.Avail) f2 :=
      runMarks_chain upgrades_refl upgrades_trans
        (fun g a b g2 hg => mark_upgrades fuel g a b g2 hg) (nbrs x y) _ f2 h
    exact upgrades_avail hup (get_set_self f x y FieldCellState.Avail)

/-- After a completed sequence of calls, none of the processed targets is
still Clear: targets that were Clear were marked, others were left alone. -/
theorem runMarks_visited_nonclear {fuel : Nat} :
    ∀ ps f f2, runMarks (mark_cells_avail_for_ant fuel) f ps = some f2 →
      ∀ p ∈ ps, get_cell_state f2 p.1 p.2 ≠ FieldCellState.Clear := by
  intro ps
  induction ps with
  | nil =>
    intro f f2 _ p hp
    cases hp
  | cons q ps ih =>
    intro f f2 h p hp
    rw [runMarks_cons] at h
    rcases Option.bind_eq_some.mp h with ⟨g, hg, hrest⟩
    rcases List.mem_cons.mp hp with rfl | hmem
    · have hup : Upgrades g f2 :=
        runMarks_chain upgrades_refl upgrades_trans
          (fun g1 a b g2 hg2 => mark_upgrades fuel g1 a b g2 hg2) ps g f2 hrest
      by_cases hc : get_cell_state f p.1 p.2 = FieldCellState.Clear
      · have : get_cell_state g p.1 p.2 = FieldCellState.Avail := mark_marks_seed hg hc
        rw [upgrades_nonclear hup (by rw [this]; simp)]
        rw [this]
        simp
      · have hskip : g = f := mark_skip hg hc
        subst hskip
        rw [upgrades_nonclear hup hc]
        exact hc
    · exact ih g f2 hrest p hmem

/-- Closedness through a sequence of calls: a cell that became Avail during
the sequence either was Avail already, or all of its guarded neighbours are
not Clear at the end of the sequence.  The first hypothesis is the induction
hypothesis of mark_closed one fuel level down. -/
theorem runMarks_closed {fuel : Nat}
    (hstep : ∀ g a b g2, mark_cells_avail_for_ant fuel g a b = some g2 →
      ∀ u v, get_cell_state g2 u v = FieldCellState.Avail →
        get_cell_state g u v = FieldCellState.Avail ∨
          (∀ q ∈ nbrs u v, get_cell_state g2 q.1 q.2 ≠ FieldCellState.Clear)) :
    ∀ ps f f2, runMarks (mark_cells_avail_for_ant fuel) f ps = some f2 →
      ∀ u v, get_cell_state f2 u v = FieldCellState.Avail →
        get_cell_state f u v = FieldCellState.Avail ∨
          (∀ q ∈ nbrs u v, get_cell_state f2 q.1 q.2 ≠ FieldCellState.Clear) := by
  intro ps
  induction ps with
  | nil =>
    intro f f2 h u v hav
    rw [runMarks_nil] at h
    cases h
    exact Or.inl hav
  | cons q ps ih =>
    intro f f2 h u v hav
    rw [runMarks_cons] at h
    rcases Option.bind_eq_some.mp h with ⟨g, hg, hrest⟩
    rcases ih g f2 hrest u v hav with hg_av | hclosed
    · rcases hstep f q.1 q.2 g hg u v hg_av with hf_av | hclosed_g
      · exact Or.inl hf_av
      · refine Or.inr fun r hr => ?_
        have hup : Upgrades g f2 :=
          runMarks_chain upgrades_refl upgrades_trans
            (fun g1 a b g2 hg2 => mark_upgrades fuel g1 a b g2 hg2) ps g f2 hrest
        rw [upgrades_nonclear hup (hclosed_g r hr)]
        exact hclosed_g r hr
    · exact Or.inr hclosed

/-- Closedness of a completed traversal: every cell that became Avail during
the call has no Clear guarded neighbour in the final store. -/
theorem mark_closed :
    ∀ fuel f x y f2, mark_cells_avail_for_ant fuel f x y = some f2 →
      ∀ u v, get_cell_state f2 u v = FieldCellState.Avail →
        get_cell_state f u v = FieldCellState.Avail ∨
          (∀ q ∈ nbrs u v, get_cell_state f2 q.1 q.2 ≠ FieldCellState.Clear) := by
  intro fuel
  induction fuel with
  | zero =>
    intro f x y f2 h
    rw [mark_zero] at h
    cases h
  | succ fuel ih =>
    intro f x y f2 h u v hav
    rw [mark_succ] at h
    split at h
    · cases h
      exact Or.inl hav
    · next hguard =>
      have hclear : get_cell_state f x y = FieldCellState.Clear := not_ne_iff.mp hguard
      rcases runMarks_closed (fun g a b g2 hg => ih g a b g2 hg) (nbrs x y) _ f2 h u v hav
        with hset_av | hclosed
      · by_cases huv : (x, y) = (u, v)
        · injection huv with h1 h2
          subst h1
          subst h2
          exact Or.inr (runMarks_visited_nonclear (nbrs x y) _ f2 h)
        · exact Or.inl (get_set_ne f x y u v FieldCellState.Avail huv ▸ hset_av)
      · exact Or.inr hclosed

/-! ## Reachability lemmas -/

/-- Every reached coordinate is Clear in the reference store. -/
theorem reach_clear {f : FieldSparseMatrix} {sx sy a b : Nat}
    (h : Reach f sx sy a b) : get_cell_state f a b = FieldCellState.Clear := by
  cases h with
  | seed hc => exact hc
  | step _ _ hc => exact hc

/-- Nothing is reachable from a seed that is not Clear. -/
theorem not_reach_of_seed_not_clear {f : FieldSparseMatrix} {sx sy : Nat}
    (hne : get_cell_state f sx sy ≠ FieldCellState.Clear) :
    ∀ a b, ¬ Reach f sx sy a b := by
  intro a b h
  induction h with
  | seed hc => exact hne hc
  | step _ _ _ ih => exact ih

/-! ## Soundness of the traversal -/

/-- Invariant form of soundness.  Relative to a reference store f0 and seed
(sx, sy), an intermediate store differs from f0 only by upgrading reachable
Clear cells to Avail; a completed call whose target is justified (reachable
whenever it is Clear in f0) preserves this. -/
theorem mark_sound_aux (f0 : FieldSparseMatrix) (sx sy : Nat) :
    ∀ fuel f x y f2, mark_cells_avail_for_ant fuel f x y = some f2 →
      (∀ a b, get_cell_state f a b = get_cell_state f0 a b ∨
        (Reach f0 sx sy a b ∧ get_cell_state f0 a b = FieldCellState.Clear ∧
          get_cell_state f a b = FieldCellState.Avail)) →
      (get_cell_state f0 x y = FieldCellState.Clear → Reach f0 sx sy x y) →
      (∀ a b, get_cell_state f2 a b = get_cell_state f0 a b ∨
        (Reach f0 sx sy a b ∧ get_cell_state f0 a b = FieldCellState.Clear ∧
          get_cell_state f2 a b = FieldCellState.Avail)) := by
  intro fuel
  induction fuel with
  | zero =>
    intro f x y f2 h
    rw [mark_zero] at h
    cases h
  | succ fuel ih =>
    intro f x y f2 h hinv hpre
    rw [mark_succ] at h
    split at h
    · cases h
      exact hinv
    · next hguard =>
      have hclear : get_cell_state f x y = FieldCellState.Clear := not_ne_iff.mp hguard
      have hf0clear : get_cell_state f0 x y = FieldCellState.Clear := by
        rcases hinv x y with heq | ⟨_, _, hav⟩
        · exact heq ▸ hclear
        · rw [hav] at hclear
          cases hclear
      have hreach : Reach f0 sx sy x y := hpre hf0clear
      have hinv1 : ∀ a b,
          get_cell_state (set_cell_state f x y FieldCellState.Avail) a b =
            get_cell_state f0 a b ∨
          (Reach f0 sx sy a b ∧ get_cell_state f0 a b = FieldCellState.Clear ∧
            get_cell_state (set_cell_state f x y FieldCellState.Avail) a b =
              FieldCellState.Avail) := by
        intro a b
        by_cases hab : (x, y) = (a, b)
        · injection hab with h1 h2
          subst h1
          subst h2
          exact Or.inr ⟨hreach, hf0clear, get_set_self f x y FieldCellState.Avail⟩
        · rw [get_set_ne f x y a b FieldCellState.Avail hab]
          exact hinv a b
      refine runMarks_inv
        (Q := fun g => ∀ a b, get_cell_state g a b = get_cell_state f0 a b ∨
          (Reach f0 sx sy a b ∧ get_cell_state f0 a b = FieldCellState.Clear ∧
            get_cell_state g a b = FieldCellState.Avail))
        (nbrs x y) _ f2 h hinv1 ?_
      intro p hp g g2 hqg hcall
      obtain ⟨pa, pb⟩ := p
      refine ih g pa pb g2 hcall hqg ?_
      intro hpclear
      exact Reach.step hreach hp hpclear

/-- Soundness: after a completed traversal, every Avail cell either was
Avail before the call or is reachable from the seed. -/
theorem mark_sound {fuel : Nat} {f : FieldSparseMatrix} {x y : Nat} {f2 : FieldSparseMatrix}
    (h : mark_cells_avail_for_ant fuel f x y = some f2) :
    ∀ a b, get_cell_state f2 a b = FieldCellState.Avail →
      get_cell_state f a b = FieldCellState.Avail ∨ Reach f x y a b := by
  intro a b hav
  rcases mark_sound_aux f x y fuel f x y f2 h (fun a b => Or.inl rfl) Reach.seed a b
    with heq | ⟨hr, _, _⟩
  · exact Or.inl (heq ▸ hav)
  · exact Or.inr hr

/-! ## Completeness of the traversal -/

/-- Completeness: after a completed traversal, every coordinate reachable
from the seed is Avail. -/
theorem mark_complete {fuel : Nat} {f : FieldSparseMatrix} {x y : Nat}
    {f2 : FieldSparseMatrix}
    (h : mark_cells_avail_for_ant fuel f x y = some f2) :
    ∀ a b, Reach f x y a b → get_cell_state f2 a b = FieldCellState.Avail := by
  intro a b hr
  induction hr with
  | seed hc => exact mark_marks_seed h hc
  | step hr2 hmem hc ih =>
    next u v a2 b2 =>
    rcases mark_closed fuel f x y f2 h u v ih with hav | hclosed
    · rw [reach_clear hr2] at hav
      cases hav
    · have hnc := hclosed (a2, b2) hmem
      rcases mark_upgrades fuel f x y f2 h a2 b2 with heq | ⟨_, hav⟩
      · exact absurd (heq.trans hc) hnc
      · exact hav

/-- The region law for a completed traversal, over an arbitrary starting
store: a cell is Avail afterwards exactly when it was Avail before or is
reachable from the seed through cells that were Clear. -/
theorem mark_avail_iff {fuel : Nat} {f : FieldSparseMatrix} {x y : Nat}
    {f2 : FieldSparseMatrix}
    (h : mark_cells_avail_for_ant fuel f x y = some f2) :
    ∀ a b, get_cell_state f2 a b = FieldCellState.Avail ↔
      (get_cell_state f a b = FieldCellState.Avail ∨ Reach f x y a b) := by
  intro a b
  constructor
  · exact mark_sound h a b
  · rintro (hav | hr)
    · exact upgrades_avail (mark_upgrades fuel f x y f2 h) hav
    · exact mark_complete h a b hr

/-! ## Counting lemmas -/

/-- Membership in the Avail list is exactly reading back Avail. -/
theorem mem_availList (f : FieldSparseMatrix) (p : Nat × Nat) :
    p ∈ availList f ↔ get_cell_state f p.1 p.2 = FieldCellState.Avail := by
  rw [get_avail_iff_stored]
  unfold availList stored_cell_state
  constructor
  · intro hp
    rcases List.mem_flatMap.mp hp with ⟨r, hr, hp2⟩
    rcases List.mem_map.mp hp2 with ⟨c, hc, hcp⟩
    rcases List.mem_filter.mp hc with ⟨hcmem, hcav⟩
    have hcav2 : c.2 = FieldCellState.Avail := by
      simpa using hcav
    have hrow : AList.lookup r.1 f = some r.2 :=
      AList.mem_lookup_iff.mpr (by rw [Sigma.eta]; exact hr)
    have hcell : AList.lookup c.1 r.2 = some c.2 :=
      AList.mem_lookup_iff.mpr (by rw [Sigma.eta]; exact hcmem)
    have h1 : p.1 = c.1 := by rw [← hcp]
    have h2 : p.2 = r.1 := by rw [← hcp]
    rw [h1, h2, hrow, Option.some_bind, hcell, hcav2]
  · intro hp
    cases hrow : AList.lookup p.2 f with
    | none => rw [hrow] at hp; cases hp
    | some row =>
      rw [hrow, Option.some_bind] at hp
      refine List.mem_flatMap.mpr ⟨⟨p.2, row⟩, AList.mem_lookup_iff.mp hrow, ?_⟩
      refine List.mem_map.mpr ⟨⟨p.1, FieldCellState.Avail⟩, ?_, rfl⟩
      refine List.mem_filter.mpr ⟨AList.mem_lookup_iff.mp hp, by simp⟩

/-- The Avail list has no duplicates: keys are unique within a row and row
keys are unique across the store. -/
theorem availList_nodup (f : FieldSparseMatrix) : (availList f).Nodup := by
  unfold availList
  rw [List.nodup_flatMap]
  constructor
  · intro r _
    have hkeys : ((r.2.entries.filter fun c => c.2 = FieldCellState.Avail).map
        Sigma.fst).Nodup :=
      ((List.filter_sublist r.2.entries).map Sigma.fst).nodup r.2.nodupKeys
    have hmapmap : ((r.2.entries.filter fun c => c.2 = FieldCellState.Avail).map
        fun c => (c.1, r.1)) =
        ((r.2.entries.filter fun c => c.2 = FieldCellState.Avail).map Sigma.fst).map
          fun a => (a, r.1) := by
      rw [List.map_map]
      rfl
    rw [hmapmap]
    exact hkeys.map fun a1 a2 h => congrArg Prod.fst h
  · have hkeys : f.entries.Pairwise fun r1 r2 => r1.1 ≠ r2.1 := by
      have := f.nodupKeys
      unfold List.NodupKeys List.keys at this
      exact List.pairwise_map.mp this
    refine hkeys.imp ?_
    intro r1 r2 hne p hp1 hp2
    rcases List.mem_map.mp hp1 with ⟨c1, _, hc1⟩
    rcases List.mem_map.mp hp2 with ⟨c2, _, hc2⟩
    apply hne
    have e1 : p.2 = r1.1 := by rw [← hc1]
    have e2 : p.2 = r2.1 := by rw [← hc2]
    exact e1 ▸ e2

/-- Within one row, the sum of Avail indicators is the number of Avail
entries. -/
theorem indicator_sum (l : List ((_ : Nat) × FieldCellState)) :
    (l.map fun c => if c.2 = FieldCellState.Avail then 1 else 0).sum =
      ((l.filter fun c => c.2 = FieldCellState.Avail).map fun c => c.1).length := by
  induction l with
  | nil => rfl
  | cons c l ih =>
    by_cases hc : c.2 = FieldCellState.Avail
    · simp [List.filter_cons, hc, ih, Nat.add_comm]
    · simp [List.filter_cons, hc, ih]

/-- The counter of the source equals the length of the Avail list. -/
theorem count_eq_availList_length (f : FieldSparseMatrix) :
    count_cells_avail_for_ant f = (availList f).length := by
  unfold count_cells_avail_for_ant availList
  rw [List.length_flatMap]
  congr 1
  refine List.map_congr_left ?_
  intro r _
  have := indicator_sum r.2.entries
  simpa using this

/-- The number of Avail entries is the size of the set of coordinates that
read back Avail. -/
theorem count_eq_ncard (f : FieldSparseMatrix) :
    count_cells_avail_for_ant f =
      Set.ncard {p : Nat × Nat | get_cell_state f p.1 p.2 = FieldCellState.Avail} := by
  have hset : {p : Nat × Nat | get_cell_state f p.1 p.2 = FieldCellState.Avail} =
      ↑(availList f).toFinset := by
    ext p
    simp [List.mem_toFinset, mem_availList]
  rw [hset, Set.ncard_coe_Finset, List.toFinset_card_of_nodup (availList_nodup f),
    count_eq_availList_length]

/-! ## Raster layout lemmas -/

theorem color_length (s : FieldCellState) : (map_state_to_color s).length = 3 := by
  cases s <;> rfl

/-- Length of a flat map whose pieces all have the same length. -/
theorem flatMap_const_length {α : Type} (L : Nat) (g : α → List Nat)
    (hg : ∀ a, (g a).length = L) :
    ∀ l : List α, (l.flatMap g).length = L * l.length := by
  intro l
  induction l with
  | nil => simp
  | cons a l ih =>
    rw [List.flatMap_cons, List.length_append, hg a, ih, List.length_cons]
    ring

/-- Dropping a whole number of uniform blocks from a flat map lands exactly
at the start of the corresponding block. -/
theorem flatMap_block_drop {α : Type} (L : Nat) (g : α → List Nat)
    (hg : ∀ a, (g a).length = L) :
    ∀ (l : List α) (k : Nat) (hk : k < l.length),
      (l.flatMap g).drop (L * k) =
        g (l.get ⟨k, hk⟩) ++ (l.drop (k + 1)).flatMap g := by
  intro l
  induction l with
  | nil =>
    intro k hk
    cases hk
  | cons a l ih =>
    intro k hk
    cases k with
    | zero => simp [List.flatMap_cons]
    | succ k =>
      have hsplit : L * (k + 1) = (g a).length + L * k := by
        rw [hg a]
        ring
      rw [List.flatMap_cons, hsplit, List.drop_append]
      have hk2 : k < l.length := Nat.lt_of_succ_lt_succ hk
      rw [ih k hk2]
      rfl

/-- C9 core layout facts, proved once and referenced by the claim theorem:
the stream starts with the header, its length accounts for exactly one
three-byte triple per cell of the inclusive window, and the triple at
row-major position (i, j) is the colour of cell (x0 + j, y0 + i). -/
theorem write_ppm_layout_core (f : FieldSparseMatrix) (x0 y0 x1 y1 : Nat)
    (hx : x0 ≤ x1) (hy : y0 ≤ y1) :
    (write_ppm f x0 y0 x1 y1).length =
        (ppm_header (x1 - x0 + 1) (y1 - y0 + 1)).length +
          3 * ((x1 - x0 + 1) * (y1 - y0 + 1)) ∧
    (write_ppm f x0 y0 x1 y1).take (ppm_header (x1 - x0 + 1) (y1 - y0 + 1)).length =
        ppm_header (x1 - x0 + 1) (y1 - y0 + 1) ∧
    ∀ i j : Nat, i < y1 - y0 + 1 → j < x1 - x0 + 1 →
      ((write_ppm f x0 y0 x1 y1).drop
          ((ppm_header (x1 - x0 + 1) (y1 - y0 + 1)).length +
            3 * (i * (x1 - x0 + 1) + j))).take 3 =
        map_state_to_color (get_cell_state f (x0 + j) (y0 + i)) := by
  have hW : x1 + 1 - x0 = x1 - x0 + 1 := by omega
  have hH : y1 + 1 - y0 = y1 - y0 + 1 := by omega
  have hsplit : write_ppm f x0 y0 x1 y1 =
      ppm_header (x1 - x0 + 1) (y1 - y0 + 1) ++
        (List.range (y1 - y0 + 1)).flatMap (fun i =>
          (List.range (x1 - x0 + 1)).flatMap fun j =>
            map_state_to_color (get_cell_state f (x0 + j) (y0 + i))) := by
    unfold write_ppm ppm_header
    rw [hW, hH]
  have hrowlen : ∀ i : Nat, ((List.range (x1 - x0 + 1)).flatMap fun j =>
      map_state_to_color (get_cell_state f (x0 + j) (y0 + i))).length =
        3 * (x1 - x0 + 1) := by
    intro i
    rw [flatMap_const_length 3 _ (fun j => color_length _), List.length_range]
  have hbodylen : ((List.range (y1 - y0 + 1)).flatMap (fun i =>
      (List.range (x1 - x0 + 1)).flatMap fun j =>
        map_state_to_color (get_cell_state f (x0 + j) (y0 + i)))).length =
        (3 * (x1 - x0 + 1)) * (y1 - y0 + 1) := by
    rw [flatMap_const_length (3 * (x1 - x0 + 1)) _ (fun i => hrowlen i), List.length_range]
  refine ⟨?_, ?_, ?_⟩
  · rw [hsplit, List.length_append, hbodylen]
    ring
  · rw [hsplit, List.take_left]
  · intro i j hi hj
    have hi2 : i < (List.range (y1 - y0 + 1)).length := by simpa using hi
    have hj2 : j < (List.range (x1 - x0 + 1)).length := by simpa using hj
    rw [hsplit, List.drop_append]
    have harith : 3 * (i * (x1 - x0 + 1) + j) = (3 * (x1 - x0 + 1)) * i + 3 * j := by ring
    rw [harith, ← List.drop_drop,
      flatMap_block_drop (3 * (x1 - x0 + 1)) _ (fun i2 => hrowlen i2)
        (List.range (y1 - y0 + 1)) i hi2]
    have hgeti : (List.range (y1 - y0 + 1)).get ⟨i, hi2⟩ = i := by
      simp [List.get_eq_getElem, List.getElem_range]
    rw [hgeti, List.drop_append_eq_append_drop,
      flatMap_block_drop 3 _ (fun j2 => color_length _) (List.range (x1 - x0 + 1)) j hj2]
    have hgetj : (List.range (x1 - x0 + 1)).get ⟨j, hj2⟩ = j := by
      simp [List.get_eq_getElem, List.getElem_range]
    rw [hgetj, List.append_assoc]
    have hlen3 : (3 : Nat) = (map_state_to_color (get_cell_state f (x0 + j) (y0 + i))).length :=
      (color_length _).symm
    conv_lhs => rw [hlen3]
    exact List.take_left _ _

/-- A store whose entries are all Clear or Obstacle has no coordinate that
reads back Avail. -/
theorem noAvail_of_entries (f : FieldSparseMatrix)
    (h : ∀ r ∈ f.entries, ∀ c ∈ r.2.entries, c.2 ≠ FieldCellState.Avail) :
    noAvailStore f := by
  intro a b hav
  rw [get_avail_iff_stored] at hav
  unfold stored_cell_state at hav
  cases hrow : AList.lookup b f with
  | none => rw [hrow] at hav; cases hav
  | some row =>
    rw [hrow, Option.some_bind] at hav
    exact h ⟨b, row⟩ (AList.mem_lookup_iff.mp (Option.mem_def.mpr hrow))
      ⟨a, FieldCellState.Avail⟩ (AList.mem_lookup_iff.mp (Option.mem_def.mpr hav)) rfl

/-! ## Claim theorems -/

/-- C1 (counterexample to the claim as stated): the claim quantifies over
every store, but a store holding a stray Avail entry falsifies it.  With one
Avail entry at (5, 5) and the seed (999, 999) an Obstacle, the traversal
completes and leaves (5, 5) stored as Avail although (5, 5) is not reachable
from the seed, so the Avail set is not exactly the reachable set. -/
theorem mark_region_law_counterexample :
    mark_cells_avail_for_ant 1 strayAvailStore 999 999 = some strayAvailStore ∧
    get_cell_state strayAvailStore 5 5 = FieldCellState.Avail ∧
    ¬ Reach strayAvailStore 999 999 5 5 :=
  ⟨rfl, by decide, not_reach_of_seed_not_clear (by decide) 5 5⟩

/-- C1 (amended): for every store with no Avail entries and every seed, when
mark_cells_avail_for_ant completes, the set of coordinates stored as Avail
is exactly the set of coordinates reachable from the seed along the guarded
neighbour steps through cells whose state was Clear, and
count_cells_avail_for_ant equals the number of those coordinates. -/
theorem mark_region_law (fuel : Nat) (f : FieldSparseMatrix) (x y : Nat)
    (f2 : FieldSparseMatrix)
    (h : mark_cells_avail_for_ant fuel f x y = some f2)
    (hno : noAvailStore f) :
    (∀ a b, get_cell_state f2 a b = FieldCellState.Avail ↔ Reach f x y a b) ∧
    count_cells_avail_for_ant f2 =
      Set.ncard {p : Nat × Nat | Reach f x y p.1 p.2} := by
  have hiff : ∀ a b, get_cell_state f2 a b = FieldCellState.Avail ↔ Reach f x y a b := by
    intro a b
    rw [mark_avail_iff h a b]
    constructor
    · rintro (hav | hr)
      · exact absurd hav (hno a b)
      · exact hr
    · exact Or.inr
  refine ⟨hiff, ?_⟩
  rw [count_eq_ncard f2]
  congr 1
  ext p
  simp only [Set.mem_setOf_eq]
  exact hiff p.1 p.2

set_option maxRecDepth 10000 in
/-- C1 witness: the 10 by 5 test grid of the repository, seeded at (4, 2);
all hypotheses of the amended region law are discharged on this store. -/
theorem mark_region_law_witness :
    count_cells_avail_for_ant cageMarked =
      Set.ncard {p : Nat × Nat | Reach cage 4 2 p.1 p.2} :=
  (mark_region_law 100 cage 4 2 cageMarked rfl
    (noAvail_of_entries cage (by decide))).2

/-- C2 (evaluation at the failing input): the claim says an increment is
skipped when the coordinate is already at the type maximum, but the guards
y <= usize::MAX and x <= usize::MAX are tautologies, so from (0, USIZE_MAX)
the traversal still visits the wrapped coordinate (0, 0) produced by the
overflowing increment, instead of skipping it. -/
theorem increment_guard_not_skipped_at_max :
    nbrs 0 USIZE_MAX = [(0, 0), (0, USIZE_MAX - 1), (1, USIZE_MAX)] := by decide

/-- C3: the classification rule is Obstacle exactly when the base-10 digit
sums of the two coordinates add up to more than 25, Clear otherwise, and it
never produces Avail; it is a total function of the coordinates. -/
theorem calc_field_cell_state_spec (x y : Nat) :
    (calc_field_cell_state x y = FieldCellState.Obstacle ↔
      25 < (Nat.digits 10 x).sum + (Nat.digits 10 y).sum) ∧
    (calc_field_cell_state x y = FieldCellState.Clear ↔
      (Nat.digits 10 x).sum + (Nat.digits 10 y).sum ≤ 25) ∧
    calc_field_cell_state x y ≠ FieldCellState.Avail := by
  have hx : get_digits_sum_loop x x 0 = (Nat.digits 10 x).sum := by
    simpa using get_digits_sum_loop_eq x x 0 (le_refl x)
  have hy : get_digits_sum_loop y y 0 = (Nat.digits 10 y).sum := by
    simpa using get_digits_sum_loop_eq y y 0 (le_refl y)
  unfold calc_field_cell_state
  rw [hx, hy]
  by_cases hcond : 25 < (Nat.digits 10 x).sum + (Nat.digits 10 y).sum
  · rw [if_pos hcond]
    refine ⟨by simp [hcond], ?_, by simp⟩
    constructor
    · intro heq
      cases heq
    · intro hle
      omega
  · rw [if_neg hcond]
    refine ⟨?_, by simp; omega, by simp⟩
    constructor
    · intro heq
      cases heq
    · intro hlt
      exact absurd hlt hcond

/-- C4: writing then reading the same coordinate returns exactly the written
state; a stored entry is returned verbatim; and with no stored entry the
classification rule decides, without any insertion into the store (the
reader does not modify the store, which is why repeated reads agree). -/
theorem get_set_contract (f : FieldSparseMatrix) (x y : Nat) (v s : FieldCellState) :
    get_cell_state (set_cell_state f x y v) x y = v ∧
    (stored_cell_state f x y = some s → get_cell_state f x y = s) ∧
    (stored_cell_state f x y = none →
      get_cell_state f x y = calc_field_cell_state x y) :=
  ⟨get_set_self f x y v, get_of_stored f x y s, get_of_unstored f x y⟩

/-- C4 witness: (999, 999) classifies as Obstacle, an explicit Clear entry
overrides that; and at an unset coordinate the classification rule
decides. -/
theorem get_set_contract_witness :
    get_cell_state (set_cell_state ∅ 999 999 FieldCellState.Clear) 999 999 =
        FieldCellState.Clear ∧
    get_cell_state (set_cell_state ∅ 101 101 FieldCellState.Avail) 101 101 =
        FieldCellState.Avail ∧
    get_cell_state ∅ 1000 1000 = calc_field_cell_state 1000 1000 :=
  ⟨(get_set_contract ∅ 999 999 FieldCellState.Clear FieldCellState.Clear).1,
   (get_set_contract (set_cell_state ∅ 101 101 FieldCellState.Avail) 101 101
      FieldCellState.Avail FieldCellState.Avail).2.1 (by decide),
   (get_set_contract ∅ 1000 1000 FieldCellState.Clear FieldCellState.Clear).2.2 (by decide)⟩

/-- C5: a completed traversal never changes a coordinate that reads back
Avail or Obstacle: Avail cells stay Avail and Obstacle cells stay Obstacle,
because the traversal writes only to cells that are Clear at the moment of
the write. -/
theorem mark_preserves_nonclear (fuel : Nat) (f : FieldSparseMatrix) (x y : Nat)
    (f2 : FieldSparseMatrix)
    (h : mark_cells_avail_for_ant fuel f x y = some f2) (a b : Nat) :
    (get_cell_state f a b = FieldCellState.Avail →
      get_cell_state f2 a b = FieldCellState.Avail) ∧
    (get_cell_state f a b = FieldCellState.Obstacle →
      get_cell_state f2 a b = FieldCellState.Obstacle) := by
  have hup := mark_upgrades fuel f x y f2 h
  constructor
  · exact fun hav => upgrades_avail hup hav
  · intro hob
    rw [upgrades_nonclear hup (by rw [hob]; simp)]
    exact hob

/-- C5 witness: a real traversal from the isolated Clear cell (9970, 0)
leaves the pre-existing Avail entry at (5, 5) and Obstacle entry at (6, 5)
untouched. -/
theorem mark_preserves_nonclear_witness :
    get_cell_state tinyMarked 5 5 = FieldCellState.Avail ∧
    get_cell_state tinyMarked 6 5 = FieldCellState.Obstacle :=
  ⟨(mark_preserves_nonclear 2 tinyStore 9970 0 tinyMarked rfl 5 5).1 (by decide),
   (mark_preserves_nonclear 2 tinyStore 9970 0 tinyMarked rfl 6 5).2 (by decide)⟩

/-- C6: for every value of the platform width, get_digits_sum returns the
sum of the base-10 digits; in particular 0 gives 0, 123 gives 6 and
999999999 gives 81 (see the witness). -/
theorem get_digits_sum_correct (n : Nat) (hn : n ≤ USIZE_MAX) :
    get_digits_sum n = some ((Nat.digits 10 n).sum) := by
  have hsum : get_digits_sum_loop n n 0 = (Nat.digits 10 n).sum := by
    simpa using get_digits_sum_loop_eq n n 0 (le_refl n)
  have hle := digit_sum_le_of_le_usize hn
  unfold get_digits_sum
  rw [hsum, if_pos (by omega)]

/-- C6 witness: the literal cases of the claim, through the theorem. -/
theorem get_digits_sum_correct_witness :
    (0 ≤ USIZE_MAX ∧ get_digits_sum 0 = some 0) ∧
    (123 ≤ USIZE_MAX ∧ get_digits_sum 123 = some 6) ∧
    (999999999 ≤ USIZE_MAX ∧ get_digits_sum 999999999 = some 81) :=
  ⟨⟨by norm_num [USIZE_MAX],
    (get_digits_sum_correct 0 (by norm_num [USIZE_MAX])).trans
      (congrArg some (by norm_num))⟩,
   ⟨by norm_num [USIZE_MAX],
    (get_digits_sum_correct 123 (by norm_num [USIZE_MAX])).trans
      (congrArg some (by norm_num))⟩,
   ⟨by norm_num [USIZE_MAX],
    (get_digits_sum_correct 999999999 (by norm_num [USIZE_MAX])).trans
      (congrArg some (by norm_num))⟩⟩

/-- C7: get_digits_sum fails (the unwrap panics) exactly when the digit sum
does not fit in 16 bits, and never wraps or truncates; for every input of
the platform width the sum is below the 16-bit bound, so the failure branch
is unreachable there. -/
theorem digit_sum_overflow_guard (n : Nat) :
    (get_digits_sum n = none ↔ 2 ^ 16 ≤ (Nat.digits 10 n).sum) ∧
    (n ≤ USIZE_MAX →
      get_digits_sum n = some ((Nat.digits 10 n).sum) ∧
        (Nat.digits 10 n).sum < 2 ^ 16) := by
  have hsum : get_digits_sum_loop n n 0 = (Nat.digits 10 n).sum := by
    simpa using get_digits_sum_loop_eq n n 0 (le_refl n)
  constructor
  · unfold get_digits_sum
    rw [hsum]
    by_cases hc : (Nat.digits 10 n).sum < 2 ^ 16
    · rw [if_pos hc]
      constructor
      · intro heq
        cases heq
      · intro hge
        omega
    · rw [if_neg hc]
      constructor
      · intro
        omega
      · intro
        rfl
  · intro hn
    have hle := digit_sum_le_of_le_usize hn
    constructor
    · unfold get_digits_sum
      rw [hsum, if_pos (by omega)]
    · omega

/-- C7 witness: the guard theorem applied at 999999999, a platform-width
input on which the overflow branch is not taken. -/
theorem digit_sum_overflow_guard_witness :
    999999999 ≤ USIZE_MAX ∧ get_digits_sum 999999999 ≠ none :=
  ⟨by norm_num [USIZE_MAX],
   fun hnone =>
     (by omega :
       ¬ (2 : Nat) ^ 16 ≤ 81)
       (by
         have h81 : (Nat.digits 10 999999999).sum = 81 := by norm_num
         exact h81 ▸ (digit_sum_overflow_guard 999999999).1.mp hnone)⟩

/-- C8 (evaluation of the resource hazard): the traversal is a direct
recursion whose nesting depth grows with the region; on the 24-cell region
of the repository test grid a recursion budget of 10 is already exhausted
(the model returns none), while 15 levels suffice.  There is no worklist:
each marked cell makes four nested recursive calls. -/
theorem mark_recursion_depth_demo :
    mark_cells_avail_for_ant 10 cage 4 2 = none ∧
    (mark_cells_avail_for_ant 15 cage 4 2).isSome = true :=
  ⟨rfl, rfl⟩

/-- C10: writing one coordinate changes the observable state of exactly that
coordinate: every other coordinate reads back as before. -/
theorem set_cell_state_frame (f : FieldSparseMatrix) (x y x2 y2 : Nat)
    (v : FieldCellState) (h : (x, y) ≠ (x2, y2)) :
    get_cell_state (set_cell_state f x y v) x2 y2 = get_cell_state f x2 y2 :=
  get_set_ne f x y x2 y2 v h

/-- C10 witness: the frame property at a concrete pair of distinct
coordinates sharing a row. -/
theorem set_cell_state_frame_witness :
    ((10, 10) : Nat × Nat) ≠ (11, 10) ∧
    get_cell_state (set_cell_state ∅ 10 10 FieldCellState.Obstacle) 11 10 =
      get_cell_state ∅ 11 10 :=
  ⟨by decide, set_cell_state_frame ∅ 10 10 11 10 FieldCellState.Obstacle (by decide)⟩

/-- C9 witness: a 1 by 1 window at the Obstacle coordinate (999, 999) is
exactly the header plus one blue triple, and the indexing law of the layout
theorem holds at pixel (0, 0) of that window. -/
theorem write_ppm_layout_core_witness :
    write_ppm ∅ 999 999 999 999 = ppm_header 1 1 ++ [0x00, 0x00, 0xFF] ∧
    ((write_ppm ∅ 999 999 999 999).drop
        ((ppm_header (999 - 999 + 1) (999 - 999 + 1)).length +
          3 * (0 * (999 - 999 + 1) + 0))).take 3 =
      map_state_to_color (get_cell_state ∅ (999 + 0) (999 + 0)) :=
  ⟨by decide,
   (write_ppm_layout_core ∅ 999 999 999 999 (le_refl 999) (le_refl 999)).2.2 0 0
     (by decide) (by decide)⟩

/-- C3 witness: the classification law evaluated at concrete coordinates:
(999, 999) has digit sums 27 + 27 = 54 > 25 and is an Obstacle, while
(1000, 1000) has digit sums 1 + 1 = 2 and is Clear. -/
theorem calc_field_cell_state_spec_witness :
    calc_field_cell_state 999 999 = FieldCellState.Obstacle ∧
    calc_field_cell_state 1000 1000 = FieldCellState.Clear :=
  ⟨(calc_field_cell_state_spec 999 999).1.mpr (by norm_num),
   (calc_field_cell_state_spec 1000 1000).2.1.mpr (by norm_num)⟩
